import Mathlib

/-!
Formal model of the libROM incremental SVD "fast update" engine
(`IncrementalSVDFastUpdate.h`) and of the `SVDBasisGenerator` wrapper
(`SVDBasisGenerator.h`), in the `CAROM` namespace of the original code.

Matrices are dense rational matrices carrying explicit row and column
counts together with an entry function; two matrices are compared with
`Mat.EqOn`, which looks only at the in-range block.  Exact rational
arithmetic replaces `double` arithmetic.  Square roots of rationals need
not exist, so every Euclidean norm enters the model as a certified
scalar `k` with `0 ≤ k` and `k ^ 2` equal to the corresponding sum of
squares.  The small `(rank+1)`-sized SVD performed once per incoming
sample is an external numerical routine in the original code; its
outputs (the rotation `A` and the updated singular values `sigma`)
enter the model as data, constrained by hypotheses where a property
needs them.
-/

namespace CAROM

/-- Dense rational matrix: explicit dimensions plus an entry function.
Entries outside the stated bounds carry no information. -/
structure Mat where
  rows : Nat
  cols : Nat
  entry : Nat → Nat → ℚ

/-- Equality of dimensions together with entry-wise equality on the
in-range block. -/
def Mat.EqOn (a b : Mat) : Prop :=
  a.rows = b.rows ∧ a.cols = b.cols ∧
    ∀ i, i < a.rows → ∀ j, j < a.cols → a.entry i j = b.entry i j

instance (a b : Mat) : Decidable (a.EqOn b) :=
  inferInstanceAs (Decidable (_ ∧ _ ∧ _))

/-- Matrix transpose. -/
def Mat.transpose (m : Mat) : Mat :=
  ⟨m.cols, m.rows, fun i j => m.entry j i⟩

/-- Matrix product; the inner dimension is taken from the left factor. -/
def Mat.mul (a b : Mat) : Mat :=
  ⟨a.rows, b.cols, fun i j => ∑ t ∈ Finset.range a.cols, a.entry i t * b.entry t j⟩

/-- Append one column on the right. -/
def Mat.appendCol (m : Mat) (v : Nat → ℚ) : Mat :=
  ⟨m.rows, m.cols + 1, fun i c => if c = m.cols then v i else m.entry i c⟩

/-- Append one row at the bottom. -/
def Mat.appendRow (m : Mat) (w : Nat → ℚ) : Mat :=
  ⟨m.rows + 1, m.cols, fun i c => if i = m.rows then w c else m.entry i c⟩

/-- The `n × n` identity matrix. -/
def idMat (n : Nat) : Mat :=
  ⟨n, n, fun i j => if i = j then 1 else 0⟩

/-- Sum of squares of the first `n` entries of a vector: the square of
its Euclidean norm. -/
def sumSq (n : Nat) (u : Nat → ℚ) : ℚ :=
  ∑ i ∈ Finset.range n, u i ^ 2

/-- The Basis State of the incremental SVD engine: the factorization
`U`, `Sigma` together with the fast-update auxiliary matrix `Up`, the
sample and rank counters and the start time of the current interval
(members `d_U`, `d_S`, `d_Up`, `d_num_samples` of `IncrementalSVD` /
`IncrementalSVDFastUpdate`). -/
structure BasisState where
  dim : Nat
  rank : Nat
  num_samples : Nat
  U : Mat
  Sigma : Mat
  Up : Mat
  time_interval_start_time : ℚ

/-- Modelled from the spec: `IncrementalSVDFastUpdate::buildInitialSVD`,
declared at `IncrementalSVDFastUpdate.h:124-128` with its body outside
the excerpt.  The first sample of an interval initializes the Basis
State with `rank = 1`, `U` the normalized sample, `Sigma` the `1 × 1`
diagonal holding the sample's norm, `Up` a single row holding the
scalar 1 (the convention consistent with the reconstruction property:
`U · Sigma · Upᵀ = (u / k) · k · 1 = u`), `num_samples = 1` and the
interval start time recorded.  `k` is the sample's norm, supplied as a
certified scalar. -/
def buildInitialSVD (dim : Nat) (u : Nat → ℚ) (k : ℚ) (time : ℚ) : BasisState where
  dim := dim
  rank := 1
  num_samples := 1
  U := ⟨dim, 1, fun i _ => u i / k⟩
  Sigma := ⟨1, 1, fun _ _ => k⟩
  Up := ⟨1, 1, fun _ _ => 1⟩
  time_interval_start_time := time

/-- The projection coefficients `jproj = Uᵀ · u` of a sample against the
current basis (step 1 of the per-sample update protocol). -/
def projCoeff (s : BasisState) (u : Nat → ℚ) : Nat → ℚ :=
  fun c => ∑ i ∈ Finset.range s.dim, s.U.entry i c * u i

/-- The residual `u − U · (Uᵀ · u)`: the component of the sample
orthogonal to the current basis (step 2 of the protocol). -/
def residual (s : BasisState) (u : Nat → ℚ) : Nat → ℚ :=
  fun i => u i - ∑ c ∈ Finset.range s.rank, s.U.entry i c * projCoeff s u c

/-- Modelled from the spec: `IncrementalSVDFastUpdate::addNewSample`,
declared at `IncrementalSVDFastUpdate.h:162-166` with its body outside
the excerpt.  `j` is the normalized residual direction, `A` and `sigma`
are the rotation and updated singular values returned by the small
`(rank+1) × (rank+1)` SVD of the augmented matrix.  The basis is
extended by `j` and rotated (`U_new = [U, j] · A`); every existing row
of `Up` is extended by a zero coordinate, the canonical row
`[0, …, 0, 1]` is appended for the new sample, and the whole matrix is
rotated by `A`; the rank and the sample count both grow by one. -/
def addNewSample (s : BasisState) (j : Nat → ℚ) (A : Mat) (sigma : Mat) : BasisState where
  dim := s.dim
  rank := s.rank + 1
  num_samples := s.num_samples + 1
  U := (s.U.appendCol j).mul A
  Sigma := sigma
  Up := ((s.Up.appendCol fun _ => 0).appendRow fun c => if c = s.rank then 1 else 0).mul A
  time_interval_start_time := s.time_interval_start_time

/-- Modelled from the spec:
`IncrementalSVDFastUpdate::addLinearlyDependentSample`, declared at
`IncrementalSVDFastUpdate.h:146-149` with its body outside the excerpt.
`U` is rotated in place by the small-SVD rotation `A` (its column count
is unchanged), the updated singular values are installed, the existing
rows of `Up` are rotated by `A` and one new row `w` holding the new
sample's coordinates is appended; no basis column is added and the rank
is unchanged. -/
def addLinearlyDependentSample (s : BasisState) (A : Mat) (sigma : Mat)
    (w : Nat → ℚ) : BasisState where
  dim := s.dim
  rank := s.rank
  num_samples := s.num_samples + 1
  U := s.U.mul A
  Sigma := sigma
  Up := (s.Up.mul A).appendRow w
  time_interval_start_time := s.time_interval_start_time

/-- Modelled from the spec: the per-sample update protocol of the engine
(`IncrementalSVD::takeSample` of the base class, outside the excerpt;
step 3 of §4.1).  The residual norm `k` is compared against
`linearity_tol` by a single strict inequality: the novel branch
(`addNewSample`) is taken when `k` is strictly above the tolerance or
when `skip_linearly_dependent` is false, the dependent branch
(`addLinearlyDependentSample`) when `k` is at or below the tolerance
and `skip_linearly_dependent` is true.  `k` is the certified residual
norm; `A`, `sigma`, `w` are the small-SVD outputs for whichever branch
is taken. -/
def takeSampleSVD (tol : ℚ) (skip : Bool) (s : BasisState) (u : Nat → ℚ)
    (k : ℚ) (A : Mat) (sigma : Mat) (w : Nat → ℚ) : BasisState :=
  if tol < k ∨ skip = false then
    addNewSample s (fun i => residual s u i / k) A sigma
  else
    addLinearlyDependentSample s A sigma w

/-- Modelled from the spec: `IncrementalSVDFastUpdate::computeBasis`,
declared at `IncrementalSVDFastUpdate.h:133-135` with its body outside
the excerpt.  Returns the currently valid `U` column-truncated to
`rank`; the Basis State is returned untouched (read-only accessor). -/
def computeBasis (s : BasisState) : Mat × BasisState :=
  (⟨s.U.rows, s.rank, s.U.entry⟩, s)

/-- Engine states reachable within one time interval: the first sample
builds the initial SVD, every later sample goes through the per-sample
update protocol.  Each norm scalar is certified (`k ^ 2` equals the
corresponding sum of squares and `k` is nonnegative), the novel branch
requires a nonzero residual norm (the residual direction is divided by
`k`), and the small-SVD outputs are square matrices of the size
dictated by the branch, with `A` orthogonal (a rotation). -/
inductive Reachable (dim : Nat) (tol : ℚ) (skip : Bool) : BasisState → Prop
  | init (u : Nat → ℚ) (k time : ℚ) (hk : 0 < k) (hcert : k ^ 2 = sumSq dim u)
      (ht : 0 ≤ time) :
      Reachable dim tol skip (buildInitialSVD dim u k time)
  | step (s : BasisState) (u : Nat → ℚ) (k : ℚ) (A sigma : Mat) (w : Nat → ℚ)
      (hs : Reachable dim tol skip s)
      (hk : 0 ≤ k) (hcert : k ^ 2 = sumSq s.dim (residual s u))
      (hnovel : (tol < k ∨ skip = false) → 0 < k)
      (hAdims : A.rows = (if tol < k ∨ skip = false then s.rank + 1 else s.rank) ∧
        A.cols = A.rows)
      (hsdims : sigma.rows = A.rows ∧ sigma.cols = A.rows)
      (hAorth : Mat.EqOn (A.transpose.mul A) (idMat A.rows)) :
      Reachable dim tol skip (takeSampleSVD tol skip s u k A sigma w)

/-- The fast-update reconstruction of sample `i` from the Basis State:
component `p` of `U · Sigma · (row i of Up)ᵀ`. -/
def recon (s : BasisState) (i p : Nat) : ℚ :=
  ∑ c ∈ Finset.range s.rank,
    (∑ e ∈ Finset.range s.rank, s.U.entry p e * s.Sigma.entry e c) *
      s.Up.entry i c

/-- Consistency of the small-SVD output on the novel branch: the
rotation `A` and updated singular values `sigma` recompose (as
`A · sigma · Aᵀ`) to the augmented coefficient matrix
`[[Sigma, jproj], [0, k]]` built from the current singular values, the
projection of the sample and the residual norm (spec §4.1, step 3; the
decomposition routine itself is outside the excerpt). -/
def NovelConsistent (s : BasisState) (u : Nat → ℚ) (k : ℚ)
    (A sigma : Mat) : Prop :=
  ∀ t, t < s.rank + 1 → ∀ d, d < s.rank + 1 →
    (∑ c ∈ Finset.range (s.rank + 1),
        (∑ e ∈ Finset.range (s.rank + 1), A.entry t e * sigma.entry e c) *
          A.entry d c)
      = if t < s.rank then
          (if d < s.rank then s.Sigma.entry t d else projCoeff s u t)
        else (if d < s.rank then 0 else k)

/-- Consistency of the small-SVD output on the dependent branch:
`A · sigma · Aᵀ` recomposes to the current singular values, and the
appended coordinate row `w` satisfies `A · sigma · wᵀ = jproj`, so that
the new row reproduces the sample's projection onto the basis
(spec §4.1, step 3). -/
def DepConsistent (s : BasisState) (u : Nat → ℚ) (A sigma : Mat)
    (w : Nat → ℚ) : Prop :=
  (∀ t, t < s.rank → ∀ d, d < s.rank →
    (∑ c ∈ Finset.range s.rank,
        (∑ e ∈ Finset.range s.rank, A.entry t e * sigma.entry e c) *
          A.entry d c)
      = s.Sigma.entry t d) ∧
  (∀ t, t < s.rank →
    (∑ c ∈ Finset.range s.rank,
        (∑ e ∈ Finset.range s.rank, A.entry t e * sigma.entry e c) * w c)
      = projCoeff s u t)

/-- Reachability together with the trace of samples folded in, in
order: the conditions of `Reachable` plus the consistency of the
small-SVD outputs with the augmented matrix they decompose. -/
inductive ReachableT (dim : Nat) (tol : ℚ) (skip : Bool) :
    List (Nat → ℚ) → BasisState → Prop
  | init (u : Nat → ℚ) (k time : ℚ) (hk : 0 < k) (hcert : k ^ 2 = sumSq dim u)
      (ht : 0 ≤ time) :
      ReachableT dim tol skip [u] (buildInitialSVD dim u k time)
  | step (samples : List (Nat → ℚ)) (s : BasisState) (u : Nat → ℚ) (k : ℚ)
      (A sigma : Mat) (w : Nat → ℚ)
      (hs : ReachableT dim tol skip samples s)
      (hk : 0 ≤ k) (hcert : k ^ 2 = sumSq s.dim (residual s u))
      (hnovel : (tol < k ∨ skip = false) → 0 < k)
      (hAdims : A.rows = (if tol < k ∨ skip = false then s.rank + 1 else s.rank) ∧
        A.cols = A.rows)
      (hsdims : sigma.rows = A.rows ∧ sigma.cols = A.rows)
      (hAorth : Mat.EqOn (A.transpose.mul A) (idMat A.rows))
      (hcons : if tol < k ∨ skip = false then NovelConsistent s u k A sigma
        else DepConsistent s u A sigma w) :
      ReachableT dim tol skip (samples ++ [u]) (takeSampleSVD tol skip s u k A sigma w)

/-! ### The `SVDBasisGenerator` wrapper (`SVDBasisGenerator.h`) -/

/-- Observable effects of a wrapper call: resetting the sampler's dt at
a new-interval boundary, flushing the basis to the configured writer,
and delegating the sample to the engine. -/
inductive Event where
  | resetDt (dt : ℚ)
  | writeBasis
  | delegateSample (time : ℚ)
deriving DecidableEq

/-- The state observable through `SVDBasisGenerator`: the sampler's
interval count and new-interval report, whether a basis writer is
configured (`d_basis_writer` non-null), and the per-interval start
times held by the sampler. -/
structure GenState where
  numIntervals : Nat
  newTimeInterval : Bool
  hasWriter : Bool
  intervalStartTimes : List ℚ
deriving DecidableEq

/-- `SVDBasisGenerator::getNumBasisTimeIntervals`
(`SVDBasisGenerator.h:157-161`): delegates to the sampler. -/
def getNumBasisTimeIntervals (g : GenState) : Nat := g.numIntervals

/-- The effects emitted by `SVDBasisGenerator::takeSample` after its
assertions pass (`SVDBasisGenerator.h:94-101`): when at least one basis
time interval exists and the sampler reports a new time interval, the
sampler's dt is reset and, when a basis writer is configured, the basis
is written; the sample is then delegated to the sampler. -/
def takeSampleEvents (g : GenState) (time dt : ℚ) : List Event :=
  (if 0 < getNumBasisTimeIntervals g ∧ g.newTimeInterval = true then
      Event.resetDt dt :: (if g.hasWriter then [Event.writeBasis] else [])
    else []) ++ [Event.delegateSample time]

/-- `SVDBasisGenerator::takeSample` (`SVDBasisGenerator.h:85-102`):
asserts a non-null sample and a nonnegative time, then performs the
boundary work and the delegation of `takeSampleEvents`.  A
`CAROM_ASSERT` failure is modelled as `Except.error`. -/
def takeSample (g : GenState) (u_in : Option (Nat → ℚ)) (time dt : ℚ) :
    Except String (List Event × GenState) :=
  match u_in with
  | none => Except.error "CAROM_ASSERT failed: u_in != 0"
  | some _ =>
    if time < 0 then Except.error "CAROM_ASSERT failed: time >= 0"
    else Except.ok (takeSampleEvents g time dt, g)

/-- `SVDBasisGenerator::endSamples` (`SVDBasisGenerator.h:107-113`):
writes the basis if and only if a basis writer is configured; nothing
else happens. -/
def endSamples (g : GenState) : List Event × GenState :=
  (if g.hasWriter then [Event.writeBasis] else [], g)

/-- `SVDBasisGenerator::getBasisIntervalStartTime`
(`SVDBasisGenerator.h:173-180`): asserts
`0 <= which_interval < getNumBasisTimeIntervals()`, then returns the
requested start time. -/
def getBasisIntervalStartTime (g : GenState) (which_interval : Int) :
    Except String ℚ :=
  if which_interval < 0 then
    Except.error "CAROM_ASSERT failed: 0 <= which_interval"
  else if (getNumBasisTimeIntervals g : Int) ≤ which_interval then
    Except.error "CAROM_ASSERT failed: which_interval < getNumBasisTimeIntervals()"
  else Except.ok (g.intervalStartTimes.getD which_interval.toNat 0)

/-- Validated construction parameters of `IncrementalSVDFastUpdate`. -/
structure SVDParams where
  dim : Int
  linearity_tol : ℚ
  skip_linearly_dependent : Bool
  samples_per_time_interval : Int
deriving DecidableEq

/-- Modelled from the spec: the `IncrementalSVDFastUpdate` constructor
(declared at `IncrementalSVDFastUpdate.h:82-89` with its body outside
the excerpt; its documented preconditions are `dim > 0`,
`linearity_tol > 0.0`, `samples_per_time_interval > 0`, validated at
construction per §6 of the design).  A violated precondition is a
fatal assertion, modelled as `Except.error`. -/
def mkIncrementalSVDFastUpdate (dim : Int) (linearity_tol : ℚ)
    (skip_linearly_dependent : Bool) (samples_per_time_interval : Int) :
    Except String SVDParams :=
  if dim ≤ 0 then Except.error "CAROM_ASSERT failed: dim > 0"
  else if linearity_tol ≤ 0 then
    Except.error "CAROM_ASSERT failed: linearity_tol > 0.0"
  else if samples_per_time_interval ≤ 0 then
    Except.error "CAROM_ASSERT failed: samples_per_time_interval > 0"
  else Except.ok
    ⟨dim, linearity_tol, skip_linearly_dependent, samples_per_time_interval⟩

/-- True exactly when a call aborted on an assertion. -/
def isAssertFailure {α : Type} (e : Except String α) : Bool :=
  match e with
  | Except.error _ => true
  | Except.ok _ => false

@[simp] theorem Mat.mul_rows (a b : Mat) : (a.mul b).rows = a.rows := rfl

@[simp] theorem Mat.mul_cols (a b : Mat) : (a.mul b).cols = b.cols := rfl

@[simp] theorem Mat.appendCol_rows (m : Mat) (v : Nat → ℚ) :
    (m.appendCol v).rows = m.rows := rfl

@[simp] theorem Mat.appendCol_cols (m : Mat) (v : Nat → ℚ) :
    (m.appendCol v).cols = m.cols + 1 := rfl

@[simp] theorem Mat.appendRow_rows (m : Mat) (w : Nat → ℚ) :
    (m.appendRow w).rows = m.rows + 1 := rfl

@[simp] theorem Mat.appendRow_cols (m : Mat) (w : Nat → ℚ) :
    (m.appendRow w).cols = m.cols := rfl

@[simp] theorem Mat.transpose_rows (m : Mat) : m.transpose.rows = m.cols := rfl

@[simp] theorem Mat.transpose_cols (m : Mat) : m.transpose.cols = m.rows := rfl

theorem Mat.mul_entry (a b : Mat) (i j : Nat) :
    (a.mul b).entry i j = ∑ t ∈ Finset.range a.cols, a.entry i t * b.entry t j := rfl

/-! ### Concrete instances used by witnesses -/

/-- The sample `[1, 0, 0, …]`. -/
def e0 : Nat → ℚ := fun i => if i = 0 then 1 else 0

/-- The sample `[0, 1, 0, …]`. -/
def e1 : Nat → ℚ := fun i => if i = 1 then 1 else 0

/-- The Basis State after the first sample `[1,0,0]` at time 0 in
dimension 3 (Scenario A of the spec). -/
def stateA : BasisState := buildInitialSVD 3 e0 1 0

/-- A placeholder matrix for branch arguments that the statement under
test does not constrain. -/
def zeroMat : Mat := ⟨0, 0, fun _ _ => 0⟩

/-- Every reachable Basis State has consistent shapes: the matrices
have the dimensions dictated by `dim`, `rank` and `num_samples`, at
least one sample has been folded in, and the rank is positive. -/
theorem reachable_shape {dim : Nat} {tol : ℚ} {skip : Bool} {s : BasisState}
    (h : Reachable dim tol skip s) :
    s.dim = dim ∧ s.U.rows = dim ∧ s.U.cols = s.rank ∧
    s.Sigma.rows = s.rank ∧ s.Sigma.cols = s.rank ∧
    s.Up.rows = s.num_samples ∧ s.Up.cols = s.rank ∧
    1 ≤ s.num_samples ∧ 1 ≤ s.rank := by
  induction h with
  | init u k time hk hcert ht =>
    exact ⟨rfl, rfl, rfl, rfl, rfl, rfl, rfl, le_refl 1, le_refl 1⟩
  | step s u k A sigma w hs hk hcert hnovel hAdims hsdims hAorth ih =>
    obtain ⟨hdim, hUr, hUc, hSr, hSc, hPr, hPc, hn, hr⟩ := ih
    obtain ⟨hAr, hAc⟩ := hAdims
    obtain ⟨hsr, hsc⟩ := hsdims
    by_cases hcond : tol < k ∨ skip = false
    · rw [if_pos hcond] at hAr
      simp only [takeSampleSVD, if_pos hcond, addNewSample, Mat.mul_rows,
        Mat.mul_cols, Mat.appendCol_rows, Mat.appendCol_cols,
        Mat.appendRow_rows, Mat.appendRow_cols]
      exact ⟨hdim, hUr, by rw [hAc, hAr], by rw [hsr, hAr], by rw [hsc, hAr],
        by rw [hPr], by rw [hAc, hAr], le_trans hn (Nat.le_succ _),
        le_trans hr (Nat.le_succ _)⟩
    · rw [if_neg hcond] at hAr
      simp only [takeSampleSVD, if_neg hcond, addLinearlyDependentSample,
        Mat.mul_rows, Mat.mul_cols, Mat.appendRow_rows, Mat.appendRow_cols]
      exact ⟨hdim, hUr, by rw [hAc, hAr], by rw [hsr, hAr], by rw [hsc, hAr],
        by rw [hPr], by rw [hAc, hAr], le_trans hn (Nat.le_succ _), hr⟩

/-! ### C4: rank monotonicity -/

/-- C4: `buildInitialSVD` starts the interval at rank 1; `addNewSample`
increases the rank by exactly 1 and `addLinearlyDependentSample` leaves
it unchanged, so each per-sample update changes the rank by exactly 0
or 1 and the rank is non-decreasing within a time interval; and
`rank ≤ num_samples` holds in every reachable Basis State. -/
theorem rank_monotonicity :
    (∀ (dim : Nat) (u : Nat → ℚ) (k time : ℚ),
      (buildInitialSVD dim u k time).rank = 1) ∧
    (∀ (s : BasisState) (j : Nat → ℚ) (A sigma : Mat),
      (addNewSample s j A sigma).rank = s.rank + 1) ∧
    (∀ (s : BasisState) (A sigma : Mat) (w : Nat → ℚ),
      (addLinearlyDependentSample s A sigma w).rank = s.rank) ∧
    (∀ (tol : ℚ) (skip : Bool) (s : BasisState) (u : Nat → ℚ) (k : ℚ)
        (A sigma : Mat) (w : Nat → ℚ),
      s.rank ≤ (takeSampleSVD tol skip s u k A sigma w).rank ∧
      ((takeSampleSVD tol skip s u k A sigma w).rank = s.rank ∨
        (takeSampleSVD tol skip s u k A sigma w).rank = s.rank + 1)) ∧
    (∀ (dim : Nat) (tol : ℚ) (skip : Bool) (s : BasisState),
      Reachable dim tol skip s → s.rank ≤ s.num_samples) := by
  refine ⟨fun _ _ _ _ => rfl, fun _ _ _ _ => rfl, fun _ _ _ _ => rfl,
    fun tol skip s u k A sigma w => ?_, fun dim tol skip s h => ?_⟩
  · by_cases hcond : tol < k ∨ skip = false
    · rw [takeSampleSVD, if_pos hcond]
      exact ⟨Nat.le_succ _, Or.inr rfl⟩
    · rw [takeSampleSVD, if_neg hcond]
      exact ⟨le_refl _, Or.inl rfl⟩
  · induction h with
    | init u k time hk hcert ht => exact le_refl 1
    | step s u k A sigma w hs hk hcert hnovel hAdims hsdims hAorth ih =>
      by_cases hcond : tol < k ∨ skip = false
      · rw [takeSampleSVD, if_pos hcond]
        exact Nat.succ_le_succ ih
      · rw [takeSampleSVD, if_neg hcond]
        exact le_trans ih (Nat.le_succ _)

/-- Witness for C4: rank facts evaluated on Scenario A's state and a
reachable state built from the first sample `[1,0,0]`. -/
theorem rank_monotonicity_witness :
    (buildInitialSVD 3 e0 1 0).rank = 1 ∧
    (addNewSample stateA e0 zeroMat zeroMat).rank = stateA.rank + 1 ∧
    (addLinearlyDependentSample stateA zeroMat zeroMat e0).rank = stateA.rank ∧
    (stateA.rank ≤ (takeSampleSVD 1 true stateA e0 0 zeroMat zeroMat e0).rank) ∧
    (buildInitialSVD 3 e0 1 0).rank ≤ (buildInitialSVD 3 e0 1 0).num_samples :=
  ⟨rank_monotonicity.1 3 e0 1 0,
    rank_monotonicity.2.1 stateA e0 zeroMat zeroMat,
    rank_monotonicity.2.2.1 stateA zeroMat zeroMat e0,
    (rank_monotonicity.2.2.2.1 1 true stateA e0 0 zeroMat zeroMat e0).1,
    rank_monotonicity.2.2.2.2 3 1 true (buildInitialSVD 3 e0 1 0)
      (Reachable.init e0 1 0 (by norm_num)
        (by norm_num [sumSq, e0, Finset.sum_range_succ]) (le_refl 0))⟩

/-! ### C5: shape of the auxiliary matrix -/

/-- C5: in every reachable Basis State, the fast-update auxiliary
matrix `Up` has exactly `num_samples` rows and exactly `rank` columns
(both branches append one row per sample; only the novel branch
appends a column). -/
theorem Up_shape {dim : Nat} {tol : ℚ} {skip : Bool} {s : BasisState}
    (h : Reachable dim tol skip s) :
    s.Up.rows = s.num_samples ∧ s.Up.cols = s.rank :=
  ⟨(reachable_shape h).2.2.2.2.2.1, (reachable_shape h).2.2.2.2.2.2.1⟩

/-- Witness for C5 on the reachable state built from the first sample
`[1,0,0]`: `Up` is `1 × 1`. -/
theorem Up_shape_witness :
    (buildInitialSVD 3 e0 1 0).Up.rows = (buildInitialSVD 3 e0 1 0).num_samples ∧
    (buildInitialSVD 3 e0 1 0).Up.cols = (buildInitialSVD 3 e0 1 0).rank :=
  @Up_shape 3 1 true (buildInitialSVD 3 e0 1 0)
    (Reachable.init e0 1 0 (by norm_num)
      (by norm_num [sumSq, e0, Finset.sum_range_succ]) (le_refl 0))

/-! ### C1: the linear-dependence branch -/

/-- C1: for every Basis State and every subsequently added sample, if
the residual norm `k` is strictly above `linearity_tol`, or if
`skip_linearly_dependent` is false, the novel-sample branch
(`addNewSample`) is taken and the rank increases by exactly 1; if `k`
is at or below the tolerance and `skip_linearly_dependent` is true, the
dependent branch (`addLinearlyDependentSample`) is taken and the rank
is unchanged; the comparison is a single strict inequality, so a
residual exactly equal to the tolerance is treated as dependent. -/
theorem takeSampleSVD_branch (tol : ℚ) (skip : Bool) (s : BasisState)
    (u : Nat → ℚ) (k : ℚ) (A sigma : Mat) (w : Nat → ℚ) :
    ((tol < k ∨ skip = false) →
      takeSampleSVD tol skip s u k A sigma w
          = addNewSample s (fun i => residual s u i / k) A sigma ∧
        (takeSampleSVD tol skip s u k A sigma w).rank = s.rank + 1) ∧
    ((k ≤ tol ∧ skip = true) →
      takeSampleSVD tol skip s u k A sigma w
          = addLinearlyDependentSample s A sigma w ∧
        (takeSampleSVD tol skip s u k A sigma w).rank = s.rank) ∧
    ((k = tol ∧ skip = true) →
      takeSampleSVD tol skip s u k A sigma w
          = addLinearlyDependentSample s A sigma w) := by
  refine ⟨fun h => ?_, fun h => ?_, fun h => ?_⟩
  · rw [takeSampleSVD, if_pos h]
    exact ⟨rfl, rfl⟩
  · have hcond : ¬ (tol < k ∨ skip = false) := by
      rcases h with ⟨hle, hskip⟩
      rintro (hlt | hfalse)
      · exact absurd hle (not_le.mpr hlt)
      · rw [hskip] at hfalse; exact Bool.noConfusion hfalse
    rw [takeSampleSVD, if_neg hcond]
    exact ⟨rfl, rfl⟩
  · have hcond : ¬ (tol < k ∨ skip = false) := by
      rcases h with ⟨heq, hskip⟩
      rintro (hlt | hfalse)
      · exact absurd hlt (by rw [heq]; exact lt_irrefl tol)
      · rw [hskip] at hfalse; exact Bool.noConfusion hfalse
    rw [takeSampleSVD, if_neg hcond]

/-- Witness for C1 at concrete inputs: with `linearity_tol = 1`, a
residual norm 2 takes the novel branch and bumps the rank of Scenario
A's state to 2; a residual norm exactly 1 (the tie) with
`skip_linearly_dependent = true` takes the dependent branch and keeps
rank 1. -/
theorem takeSampleSVD_branch_witness :
    (takeSampleSVD 1 true stateA e0 2 zeroMat zeroMat e0
        = addNewSample stateA (fun i => residual stateA e0 i / 2) zeroMat zeroMat ∧
      (takeSampleSVD 1 true stateA e0 2 zeroMat zeroMat e0).rank = stateA.rank + 1) ∧
    (takeSampleSVD 1 true stateA e0 1 zeroMat zeroMat e0
        = addLinearlyDependentSample stateA zeroMat zeroMat e0 ∧
      (takeSampleSVD 1 true stateA e0 1 zeroMat zeroMat e0).rank = stateA.rank) ∧
    (takeSampleSVD 1 true stateA e0 1 zeroMat zeroMat e0
        = addLinearlyDependentSample stateA zeroMat zeroMat e0) :=
  ⟨(takeSampleSVD_branch 1 true stateA e0 2 zeroMat zeroMat e0).1
      (Or.inl (by norm_num)),
    (takeSampleSVD_branch 1 true stateA e0 1 zeroMat zeroMat e0).2.1
      ⟨le_refl 1, rfl⟩,
    (takeSampleSVD_branch 1 true stateA e0 1 zeroMat zeroMat e0).2.2
      ⟨rfl, rfl⟩⟩

/-! ### C2: the initial SVD -/

/-- C2: for every sample vector `u` of length `dim` with certified norm
`k > 0` and every `time ≥ 0`, `buildInitialSVD u time` produces a Basis
State with `rank = 1`, `U` equal to the normalized sample (a
`dim × 1` matrix of unit norm), `Sigma` the `1 × 1` diagonal holding
the sample's norm, `Up` a single row, `num_samples = 1` and
`time_interval_start_time = time`. -/
theorem buildInitialSVD_spec (dim : Nat) (u : Nat → ℚ) (k time : ℚ)
    (hk : 0 < k) (hcert : k ^ 2 = sumSq dim u) (ht : 0 ≤ time) :
    (buildInitialSVD dim u k time).rank = 1 ∧
    (buildInitialSVD dim u k time).U.rows = dim ∧
    (buildInitialSVD dim u k time).U.cols = 1 ∧
    (∀ i, i < dim → (buildInitialSVD dim u k time).U.entry i 0 = u i / k) ∧
    sumSq dim (fun i => (buildInitialSVD dim u k time).U.entry i 0) = 1 ∧
    (buildInitialSVD dim u k time).Sigma.rows = 1 ∧
    (buildInitialSVD dim u k time).Sigma.cols = 1 ∧
    (buildInitialSVD dim u k time).Sigma.entry 0 0 = k ∧
    (buildInitialSVD dim u k time).Up.rows = 1 ∧
    (buildInitialSVD dim u k time).num_samples = 1 ∧
    (buildInitialSVD dim u k time).time_interval_start_time = time := by
  refine ⟨rfl, rfl, rfl, fun i _ => rfl, ?_, rfl, rfl, rfl, rfl, rfl, rfl⟩
  have hkne : k ≠ 0 := ne_of_gt hk
  show (∑ i ∈ Finset.range dim, (u i / k) ^ 2) = 1
  calc (∑ i ∈ Finset.range dim, (u i / k) ^ 2)
      = (∑ i ∈ Finset.range dim, u i ^ 2) / k ^ 2 := by
        rw [Finset.sum_div]
        exact Finset.sum_congr rfl fun i _ => div_pow (u i) k 2
    _ = 1 := by
        rw [sumSq] at hcert
        rw [← hcert]
        exact div_self (pow_ne_zero 2 hkne)

/-- Witness for C2 at Scenario A of the spec: dimension 3, first sample
`[1,0,0]` at time 0 yields `rank = 1`, `U = [[1],[0],[0]]` and
`Sigma = [[1]]`. -/
theorem buildInitialSVD_spec_witness :
    ((buildInitialSVD 3 e0 1 0).rank = 1 ∧
      (buildInitialSVD 3 e0 1 0).U.rows = 3 ∧
      (buildInitialSVD 3 e0 1 0).U.cols = 1 ∧
      (∀ i, i < 3 → (buildInitialSVD 3 e0 1 0).U.entry i 0 = e0 i / 1) ∧
      sumSq 3 (fun i => (buildInitialSVD 3 e0 1 0).U.entry i 0) = 1 ∧
      (buildInitialSVD 3 e0 1 0).Sigma.rows = 1 ∧
      (buildInitialSVD 3 e0 1 0).Sigma.cols = 1 ∧
      (buildInitialSVD 3 e0 1 0).Sigma.entry 0 0 = 1 ∧
      (buildInitialSVD 3 e0 1 0).Up.rows = 1 ∧
      (buildInitialSVD 3 e0 1 0).num_samples = 1 ∧
      (buildInitialSVD 3 e0 1 0).time_interval_start_time = 0) ∧
    (buildInitialSVD 3 e0 1 0).U.entry 0 0 = 1 ∧
    (buildInitialSVD 3 e0 1 0).U.entry 1 0 = 0 ∧
    (buildInitialSVD 3 e0 1 0).U.entry 2 0 = 0 :=
  ⟨buildInitialSVD_spec 3 e0 1 0 (by norm_num)
      (by norm_num [sumSq, e0, Finset.sum_range_succ]) (le_refl 0),
    by norm_num [buildInitialSVD, e0],
    by norm_num [buildInitialSVD, e0],
    by norm_num [buildInitialSVD, e0]⟩

/-! ### C7: the new-interval boundary in `takeSample` -/

/-- Counterexample to C7 as stated: with no basis time interval yet
(`getNumBasisTimeIntervals() = 0`), a call in which the sampler reports
a new time interval and a writer is configured neither resets dt nor
writes the basis — it only delegates, because the boundary code is also
guarded by `getNumBasisTimeIntervals() > 0`. -/
theorem takeSample_newInterval_cex :
    (⟨0, true, true, []⟩ : GenState).newTimeInterval = true ∧
    (⟨0, true, true, []⟩ : GenState).hasWriter = true ∧
    takeSample ⟨0, true, true, []⟩ (some e0) 0 1
      = Except.ok ([Event.delegateSample 0], ⟨0, true, true, []⟩) :=
  ⟨rfl, rfl, rfl⟩

/-- C7 (amended): for every call to `takeSample(sample, time, dt)` in
which the sampler reports a new time interval AND at least one basis
time interval already exists, the wrapper resets dt and flushes the
basis to the writer (when one is configured) before delegating the
sample to the engine. -/
theorem takeSample_newInterval (g : GenState) (u : Nat → ℚ) (time dt : ℚ)
    (hn : 0 < getNumBasisTimeIntervals g) (hi : g.newTimeInterval = true)
    (ht : 0 ≤ time) :
    takeSample g (some u) time dt
      = Except.ok (Event.resetDt dt ::
          ((if g.hasWriter then [Event.writeBasis] else []) ++
            [Event.delegateSample time]), g) := by
  rw [takeSample, if_neg (not_lt.mpr ht), takeSampleEvents,
    if_pos (And.intro hn hi)]
  rfl

/-- Witness for C7 (amended) at a concrete state with one completed
interval, a new-interval report and a configured writer: dt is reset,
the basis is written, the sample is delegated, in that order. -/
theorem takeSample_newInterval_witness :
    takeSample ⟨1, true, true, []⟩ (some e0) 0 1
      = Except.ok ([Event.resetDt 1, Event.writeBasis, Event.delegateSample 0],
          ⟨1, true, true, []⟩) :=
  takeSample_newInterval ⟨1, true, true, []⟩ e0 0 1 Nat.one_pos rfl (le_refl 0)

/-! ### C8: `computeBasis` is a read-only accessor -/

/-- C8: for every Basis State with at least one sample, `computeBasis`
returns the currently valid `U` column-truncated to `rank`, and is
read-only and side-effect-free: the Basis State component of its result
is the input state, unchanged in every field. -/
theorem computeBasis_spec (s : BasisState) (h : 1 ≤ s.num_samples) :
    (computeBasis s).2 = s ∧
    (computeBasis s).1.rows = s.U.rows ∧
    (computeBasis s).1.cols = s.rank ∧
    ∀ i j : Nat, (computeBasis s).1.entry i j = s.U.entry i j :=
  ⟨rfl, rfl, rfl, fun _ _ => rfl⟩

/-- Witness for C8 on Scenario A's state. -/
theorem computeBasis_spec_witness :
    (computeBasis stateA).2 = stateA ∧
    (computeBasis stateA).1.rows = stateA.U.rows ∧
    (computeBasis stateA).1.cols = stateA.rank ∧
    ∀ i j : Nat, (computeBasis stateA).1.entry i j = stateA.U.entry i j :=
  computeBasis_spec stateA (le_refl 1)

/-! ### C9: precondition violations are fatal assertions -/

/-- C9: every precondition-violating call at the public interface — a
null sample pointer or negative time passed to `takeSample`,
non-positive dimension, tolerance or samples-per-time-interval at
construction, or an interval index outside
`[0, getNumBasisTimeIntervals())` passed to
`getBasisIntervalStartTime` — fails with a fatal assertion (modelled as
`Except.error`, never an `Except.ok` value). -/
theorem precondition_asserts (g : GenState) (u : Nat → ℚ) (time dt : ℚ)
    (dim spti idx : Int) (tol : ℚ) (skip : Bool) :
    isAssertFailure (takeSample g none time dt) = true ∧
    (time < 0 → isAssertFailure (takeSample g (some u) time dt) = true) ∧
    (dim ≤ 0 →
      isAssertFailure (mkIncrementalSVDFastUpdate dim tol skip spti) = true) ∧
    (tol ≤ 0 →
      isAssertFailure (mkIncrementalSVDFastUpdate dim tol skip spti) = true) ∧
    (spti ≤ 0 →
      isAssertFailure (mkIncrementalSVDFastUpdate dim tol skip spti) = true) ∧
    (idx < 0 ∨ (getNumBasisTimeIntervals g : Int) ≤ idx →
      isAssertFailure (getBasisIntervalStartTime g idx) = true) := by
  refine ⟨rfl, fun ht => ?_, fun hd => ?_, fun htol => ?_, fun hs => ?_,
    fun hidx => ?_⟩
  · rw [takeSample]
    simp only [if_pos ht]
    rfl
  · rw [mkIncrementalSVDFastUpdate, if_pos hd]
    rfl
  · rw [mkIncrementalSVDFastUpdate]
    by_cases hd : dim ≤ 0
    · rw [if_pos hd]; rfl
    · rw [if_neg hd, if_pos htol]; rfl
  · rw [mkIncrementalSVDFastUpdate]
    by_cases hd : dim ≤ 0
    · rw [if_pos hd]; rfl
    · rw [if_neg hd]
      by_cases htol : tol ≤ 0
      · rw [if_pos htol]; rfl
      · rw [if_neg htol, if_pos hs]; rfl
  · rw [getBasisIntervalStartTime]
    by_cases hneg : idx < 0
    · rw [if_pos hneg]; rfl
    · rcases hidx with hneg' | hge
      · exact absurd hneg' hneg
      · rw [if_neg hneg, if_pos hge]; rfl

/-- Witness for C9 at concrete violating inputs: a null sample, time
−1, dimension −1, tolerance −1, samples-per-time-interval −1, and
interval index 5 against a single recorded interval. -/
theorem precondition_asserts_witness :
    isAssertFailure (takeSample ⟨1, true, true, []⟩ none 0 1) = true ∧
    isAssertFailure (takeSample ⟨1, true, true, []⟩ (some e0) (-1) 1) = true ∧
    isAssertFailure (mkIncrementalSVDFastUpdate (-1) (-1) true (-1)) = true ∧
    isAssertFailure (getBasisIntervalStartTime ⟨1, true, true, []⟩ 5) = true := by
  obtain ⟨h1, h2, h3, _, _, h6⟩ :=
    precondition_asserts ⟨1, true, true, []⟩ e0 (-1) 1 (-1) (-1) 5 (-1) true
  exact ⟨h1, h2 (by norm_num), h3 (by decide), h6 (Or.inr (by decide))⟩

/-! ### C10: `endSamples` without a writer -/

/-- C10: when no basis writer is configured, `endSamples` is a no-op:
it emits no effect and returns the generator state unchanged; the same
guard makes the flush inside `takeSample` vacuous, so no call ever
writes the basis. -/
theorem endSamples_noWriter (g : GenState) (h : g.hasWriter = false) :
    endSamples g = ([], g) ∧
    ∀ time dt : ℚ, Event.writeBasis ∉ takeSampleEvents g time dt := by
  constructor
  · rw [endSamples, h]
    rfl
  · intro time dt
    rw [takeSampleEvents, h]
    by_cases hc : 0 < getNumBasisTimeIntervals g ∧ g.newTimeInterval = true
    · rw [if_pos hc]
      simp
    · rw [if_neg hc]
      simp

/-- Witness for C10 at a concrete writerless state. -/
theorem endSamples_noWriter_witness :
    endSamples ⟨1, true, false, []⟩ = ([], (⟨1, true, false, []⟩ : GenState)) ∧
    Event.writeBasis ∉ takeSampleEvents ⟨1, true, false, []⟩ 0 1 :=
  ⟨(endSamples_noWriter ⟨1, true, false, []⟩ rfl).1,
    (endSamples_noWriter ⟨1, true, false, []⟩ rfl).2 0 1⟩

/-! ### C6: orthonormality of the basis columns -/

/-- Rotating a matrix with orthonormal columns by an orthogonal matrix
preserves orthonormality of the columns. -/
theorem ortho_mul (n r : Nat) (B A : Mat) (hBc : B.cols = r)
    (hB : ∀ c, c < r → ∀ d, d < r →
      (∑ i ∈ Finset.range n, B.entry i c * B.entry i d) = if c = d then 1 else 0)
    (hA : ∀ c, c < A.cols → ∀ d, d < A.cols →
      (∑ t ∈ Finset.range r, A.entry t c * A.entry t d) = if c = d then 1 else 0) :
    ∀ c, c < A.cols → ∀ d, d < A.cols →
      (∑ i ∈ Finset.range n, (B.mul A).entry i c * (B.mul A).entry i d)
        = if c = d then 1 else 0 := by
  intro c hc d hd
  have hent : ∀ i j, (B.mul A).entry i j
      = ∑ t ∈ Finset.range r, B.entry i t * A.entry t j := by
    intro i j
    rw [Mat.mul_entry, hBc]
  calc (∑ i ∈ Finset.range n, (B.mul A).entry i c * (B.mul A).entry i d)
      = ∑ i ∈ Finset.range n, ∑ t ∈ Finset.range r, ∑ s ∈ Finset.range r,
          (B.entry i t * A.entry t c) * (B.entry i s * A.entry s d) := by
        refine Finset.sum_congr rfl fun i _ => ?_
        rw [hent, hent, Finset.sum_mul_sum]
    _ = ∑ t ∈ Finset.range r, ∑ s ∈ Finset.range r,
          (A.entry t c * A.entry s d) *
            ∑ i ∈ Finset.range n, B.entry i t * B.entry i s := by
        rw [Finset.sum_comm]
        refine Finset.sum_congr rfl fun t _ => ?_
        rw [Finset.sum_comm]
        refine Finset.sum_congr rfl fun s _ => ?_
        rw [Finset.mul_sum]
        refine Finset.sum_congr rfl fun i _ => ?_
        ring
    _ = ∑ t ∈ Finset.range r, A.entry t c * A.entry t d := by
        refine Finset.sum_congr rfl fun t ht => ?_
        have hts : ∀ s ∈ Finset.range r,
            (A.entry t c * A.entry s d) *
              (∑ i ∈ Finset.range n, B.entry i t * B.entry i s)
              = if t = s then A.entry t c * A.entry s d else 0 := by
          intro s hsr
          rw [hB t (Finset.mem_range.mp ht) s (Finset.mem_range.mp hsr)]
          by_cases hts' : t = s
          · rw [if_pos hts', if_pos hts', mul_one]
          · rw [if_neg hts', if_neg hts', mul_zero]
        rw [Finset.sum_congr rfl hts, Finset.sum_ite_eq, if_pos ht]
    _ = if c = d then 1 else 0 := hA c hc d hd

/-- The residual of a sample is orthogonal to every current basis
column, provided the basis columns are orthonormal. -/
theorem inner_residual_zero (s : BasisState) (u : Nat → ℚ)
    (hU : ∀ c, c < s.rank → ∀ d, d < s.rank →
      (∑ i ∈ Finset.range s.dim, s.U.entry i c * s.U.entry i d)
        = if c = d then 1 else 0)
    (t : Nat) (ht : t < s.rank) :
    (∑ i ∈ Finset.range s.dim, s.U.entry i t * residual s u i) = 0 := by
  have h1 : ∀ i, s.U.entry i t * residual s u i
      = s.U.entry i t * u i - ∑ c ∈ Finset.range s.rank,
          projCoeff s u c * (s.U.entry i t * s.U.entry i c) := by
    intro i
    simp only [residual]
    rw [mul_sub, Finset.mul_sum]
    congr 1
    refine Finset.sum_congr rfl fun c _ => ?_
    ring
  calc (∑ i ∈ Finset.range s.dim, s.U.entry i t * residual s u i)
      = (∑ i ∈ Finset.range s.dim, s.U.entry i t * u i)
        - ∑ i ∈ Finset.range s.dim, ∑ c ∈ Finset.range s.rank,
            projCoeff s u c * (s.U.entry i t * s.U.entry i c) := by
        rw [← Finset.sum_sub_distrib]
        exact Finset.sum_congr rfl fun i _ => h1 i
    _ = projCoeff s u t - ∑ c ∈ Finset.range s.rank,
          projCoeff s u c *
            ∑ i ∈ Finset.range s.dim, s.U.entry i t * s.U.entry i c := by
        congr 1
        rw [Finset.sum_comm]
        refine Finset.sum_congr rfl fun c _ => ?_
        rw [Finset.mul_sum]
    _ = projCoeff s u t - ∑ c ∈ Finset.range s.rank,
          projCoeff s u c * (if t = c then 1 else 0) := by
        congr 1
        refine Finset.sum_congr rfl fun c hc => ?_
        rw [hU t ht c (Finset.mem_range.mp hc)]
    _ = 0 := by
        simp only [mul_ite, mul_one, mul_zero]
        rw [Finset.sum_ite_eq, if_pos (Finset.mem_range.mpr ht), sub_self]

/-- Appending the normalized residual direction to an orthonormal basis
keeps the columns orthonormal. -/
theorem appendCol_ortho (s : BasisState) (u : Nat → ℚ) (k : ℚ) (hk : k ≠ 0)
    (hUc : s.U.cols = s.rank)
    (hU : ∀ c, c < s.rank → ∀ d, d < s.rank →
      (∑ i ∈ Finset.range s.dim, s.U.entry i c * s.U.entry i d)
        = if c = d then 1 else 0)
    (hcert : k ^ 2 = sumSq s.dim (residual s u)) :
    ∀ c, c < s.rank + 1 → ∀ d, d < s.rank + 1 →
      (∑ i ∈ Finset.range s.dim,
          (s.U.appendCol fun i => residual s u i / k).entry i c *
            (s.U.appendCol fun i => residual s u i / k).entry i d)
        = if c = d then 1 else 0 := by
  have hent : ∀ i c, (s.U.appendCol fun i => residual s u i / k).entry i c
      = if c = s.rank then residual s u i / k else s.U.entry i c := by
    intro i c
    rw [Mat.appendCol, hUc]
  have hself : (∑ i ∈ Finset.range s.dim,
      (residual s u i / k) * (residual s u i / k)) = 1 := by
    have : ∀ i ∈ Finset.range s.dim,
        (residual s u i / k) * (residual s u i / k)
          = residual s u i ^ 2 / k ^ 2 := by
      intro i _
      rw [div_mul_div_comm, ← pow_two, ← pow_two]
    rw [Finset.sum_congr rfl this, ← Finset.sum_div]
    rw [sumSq] at hcert
    rw [← hcert]
    exact div_self (pow_ne_zero 2 hk)
  have hcross : ∀ t, t < s.rank →
      (∑ i ∈ Finset.range s.dim, s.U.entry i t * (residual s u i / k)) = 0 := by
    intro t htr
    have : ∀ i ∈ Finset.range s.dim,
        s.U.entry i t * (residual s u i / k)
          = (s.U.entry i t * residual s u i) / k := by
      intro i _
      rw [mul_div_assoc]
    rw [Finset.sum_congr rfl this, ← Finset.sum_div,
      inner_residual_zero s u hU t htr, zero_div]
  intro c hc d hd
  rcases Nat.lt_succ_iff_lt_or_eq.mp hc with hcr | hcr
  · rcases Nat.lt_succ_iff_lt_or_eq.mp hd with hdr | hdr
    · have : ∀ i ∈ Finset.range s.dim,
          (s.U.appendCol fun i => residual s u i / k).entry i c *
            (s.U.appendCol fun i => residual s u i / k).entry i d
            = s.U.entry i c * s.U.entry i d := by
        intro i _
        rw [hent, hent, if_neg (Nat.ne_of_lt hcr), if_neg (Nat.ne_of_lt hdr)]
      rw [Finset.sum_congr rfl this]
      exact hU c hcr d hdr
    · have : ∀ i ∈ Finset.range s.dim,
          (s.U.appendCol fun i => residual s u i / k).entry i c *
            (s.U.appendCol fun i => residual s u i / k).entry i d
            = s.U.entry i c * (residual s u i / k) := by
        intro i _
        rw [hent, hent, if_neg (Nat.ne_of_lt hcr), if_pos hdr]
      rw [Finset.sum_congr rfl this, hcross c hcr,
        if_neg (by rw [hdr]; exact Nat.ne_of_lt hcr)]
  · rcases Nat.lt_succ_iff_lt_or_eq.mp hd with hdr | hdr
    · have : ∀ i ∈ Finset.range s.dim,
          (s.U.appendCol fun i => residual s u i / k).entry i c *
            (s.U.appendCol fun i => residual s u i / k).entry i d
            = s.U.entry i d * (residual s u i / k) := by
        intro i _
        rw [hent, hent, if_pos hcr, if_neg (Nat.ne_of_lt hdr)]
        ring
      rw [Finset.sum_congr rfl this, hcross d hdr,
        if_neg (by rw [hcr]; exact (Nat.ne_of_lt hdr).symm)]
    · have : ∀ i ∈ Finset.range s.dim,
          (s.U.appendCol fun i => residual s u i / k).entry i c *
            (s.U.appendCol fun i => residual s u i / k).entry i d
            = (residual s u i / k) * (residual s u i / k) := by
        intro i _
        rw [hent, hent, if_pos hcr, if_pos hdr]
      rw [Finset.sum_congr rfl this, hself, if_pos (hcr.trans hdr.symm)]

/-- Unpacking `Mat.EqOn (Aᵀ·A) (idMat A.rows)` into entry form. -/
theorem orthoMat_entries (A : Mat)
    (h : Mat.EqOn (A.transpose.mul A) (idMat A.rows)) :
    ∀ c, c < A.cols → ∀ d, d < A.cols →
      (∑ t ∈ Finset.range A.rows, A.entry t c * A.entry t d)
        = if c = d then 1 else 0 := by
  intro c hc d hd
  exact h.2.2 c hc d hd

/-- In every reachable Basis State the columns of `U` are orthonormal:
entry form of `Uᵀ·U = I`. -/
theorem reachable_ortho {dim : Nat} {tol : ℚ} {skip : Bool} {s : BasisState}
    (h : Reachable dim tol skip s) :
    ∀ c, c < s.rank → ∀ d, d < s.rank →
      (∑ i ∈ Finset.range s.dim, s.U.entry i c * s.U.entry i d)
        = if c = d then 1 else 0 := by
  induction h with
  | init u k time hk hcert ht =>
    intro c hc d hd
    have hc0 : c = 0 := Nat.lt_one_iff.mp hc
    have hd0 : d = 0 := Nat.lt_one_iff.mp hd
    subst hc0; subst hd0
    rw [if_pos rfl]
    show (∑ i ∈ Finset.range dim, (u i / k) * (u i / k)) = 1
    have hterm : ∀ i ∈ Finset.range dim,
        (u i / k) * (u i / k) = u i ^ 2 / k ^ 2 := by
      intro i _
      rw [div_mul_div_comm, ← pow_two, ← pow_two]
    rw [Finset.sum_congr rfl hterm, ← Finset.sum_div]
    rw [sumSq] at hcert
    rw [← hcert]
    exact div_self (pow_ne_zero 2 (ne_of_gt hk))
  | step s u k A sigma w hs hk hcert hnovel hAdims hsdims hAorth ih =>
    obtain ⟨hdim, hUr, hUc, hSr, hSc, hPr, hPc, hn, hr⟩ := reachable_shape hs
    obtain ⟨hAr, hAc⟩ := hAdims
    have hA := orthoMat_entries A hAorth
    by_cases hcond : tol < k ∨ skip = false
    · rw [if_pos hcond] at hAr
      have hkpos : 0 < k := hnovel hcond
      have hB := appendCol_ortho s u k (ne_of_gt hkpos) hUc ih hcert
      have hmain := ortho_mul s.dim (s.rank + 1)
        (s.U.appendCol fun i => residual s u i / k) A
        (by rw [Mat.appendCol_cols, hUc]) hB
        (by rw [← hAr]; exact hA)
      intro c hc d hd
      have hrank : (takeSampleSVD tol skip s u k A sigma w).rank = s.rank + 1 := by
        rw [takeSampleSVD, if_pos hcond]; rfl
      have hUeq : (takeSampleSVD tol skip s u k A sigma w).U
          = ((s.U.appendCol fun i => residual s u i / k).mul A) := by
        rw [takeSampleSVD, if_pos hcond]; rfl
      have hdeq : (takeSampleSVD tol skip s u k A sigma w).dim = s.dim := by
        rw [takeSampleSVD, if_pos hcond]; rfl
      rw [hrank] at hc hd
      rw [hUeq, hdeq]
      exact hmain c (by rw [hAc, hAr]; exact hc) d (by rw [hAc, hAr]; exact hd)
    · rw [if_neg hcond] at hAr
      have hmain := ortho_mul s.dim s.rank s.U A hUc ih
        (by rw [← hAr]; exact hA)
      intro c hc d hd
      have hrank : (takeSampleSVD tol skip s u k A sigma w).rank = s.rank := by
        rw [takeSampleSVD, if_neg hcond]; rfl
      have hUeq : (takeSampleSVD tol skip s u k A sigma w).U = s.U.mul A := by
        rw [takeSampleSVD, if_neg hcond]; rfl
      have hdeq : (takeSampleSVD tol skip s u k A sigma w).dim = s.dim := by
        rw [takeSampleSVD, if_neg hcond]; rfl
      rw [hrank] at hc hd
      rw [hUeq, hdeq]
      exact hmain c (by rw [hAc, hAr]; exact hc) d (by rw [hAc, hAr]; exact hd)

/-- C6: in every reachable Basis State, `Uᵀ·U` is the `rank × rank`
identity matrix — in this exact-arithmetic model the equality is exact,
hence in particular within any small numerical tolerance: `U` always
has exactly `rank` orthonormal columns. -/
theorem UtU_identity {dim : Nat} {tol : ℚ} {skip : Bool} {s : BasisState}
    (h : Reachable dim tol skip s) :
    Mat.EqOn (s.U.transpose.mul s.U) (idMat s.rank) := by
  obtain ⟨hdim, hUr, hUc, _, _, _, _, _, _⟩ := reachable_shape h
  refine ⟨by rw [Mat.mul_rows, Mat.transpose_rows, hUc]; rfl,
    by rw [Mat.mul_cols, hUc]; rfl, ?_⟩
  intro c hc d hd
  have hc' : c < s.rank := by
    rw [Mat.mul_rows, Mat.transpose_rows, hUc] at hc; exact hc
  have hd' : d < s.rank := by
    rw [Mat.mul_rows, Mat.transpose_rows, hUc] at hc
    rw [Mat.mul_cols, hUc] at hd; exact hd
  show (∑ t ∈ Finset.range s.U.transpose.cols,
      s.U.transpose.entry c t * s.U.entry t d) = (idMat s.rank).entry c d
  have hTc : s.U.transpose.cols = s.dim := by
    rw [Mat.transpose_cols, hUr, hdim]
  rw [hTc]
  exact reachable_ortho h c hc' d hd'

/-- Witness for C6 on the reachable state built from the first sample
`[1,0,0]`: `Uᵀ·U` is the `1 × 1` identity. -/
theorem UtU_identity_witness :
    Mat.EqOn
      ((buildInitialSVD 3 e0 1 0).U.transpose.mul (buildInitialSVD 3 e0 1 0).U)
      (idMat (buildInitialSVD 3 e0 1 0).rank) :=
  @UtU_identity 3 1 true (buildInitialSVD 3 e0 1 0)
    (Reachable.init e0 1 0 (by norm_num)
      (by norm_num [sumSq, e0, Finset.sum_range_succ]) (le_refl 0))

/-! ### C3: the reconstruction property -/

/-- Pulling a row-times-matrix product out of a product with the
singular values: `((x·A)·sigma)_c = ∑ t, x t · (A·sigma)_{t c}`. -/
theorem colRow_swap (m : Nat) (x : Nat → ℚ) (A sigma : Mat) (c : Nat) :
    (∑ e ∈ Finset.range m,
        (∑ t ∈ Finset.range m, x t * A.entry t e) * sigma.entry e c)
      = ∑ t ∈ Finset.range m,
          x t * (∑ e ∈ Finset.range m, A.entry t e * sigma.entry e c) := by
  calc (∑ e ∈ Finset.range m,
      (∑ t ∈ Finset.range m, x t * A.entry t e) * sigma.entry e c)
      = ∑ e ∈ Finset.range m, ∑ t ∈ Finset.range m,
          (x t * A.entry t e) * sigma.entry e c := by
        refine Finset.sum_congr rfl fun e _ => ?_
        rw [Finset.sum_mul]
    _ = ∑ t ∈ Finset.range m, ∑ e ∈ Finset.range m,
          (x t * A.entry t e) * sigma.entry e c := Finset.sum_comm
    _ = ∑ t ∈ Finset.range m,
          x t * (∑ e ∈ Finset.range m, A.entry t e * sigma.entry e c) := by
        refine Finset.sum_congr rfl fun t _ => ?_
        rw [Finset.mul_sum]
        refine Finset.sum_congr rfl fun e _ => ?_
        ring

/-- The sandwich `(x·A) · sigma · vᵀ` rewritten so that the rotation
data `A·sigma` acts on `v` first. -/
theorem tri_sum_swap (m : Nat) (x v : Nat → ℚ) (A sigma : Mat) :
    (∑ c ∈ Finset.range m,
        (∑ e ∈ Finset.range m,
          (∑ t ∈ Finset.range m, x t * A.entry t e) * sigma.entry e c) * v c)
      = ∑ t ∈ Finset.range m,
          x t * (∑ c ∈ Finset.range m,
            (∑ e ∈ Finset.range m, A.entry t e * sigma.entry e c) * v c) := by
  calc (∑ c ∈ Finset.range m,
      (∑ e ∈ Finset.range m,
        (∑ t ∈ Finset.range m, x t * A.entry t e) * sigma.entry e c) * v c)
      = ∑ c ∈ Finset.range m,
          (∑ t ∈ Finset.range m,
            x t * (∑ e ∈ Finset.range m, A.entry t e * sigma.entry e c)) * v c := by
        refine Finset.sum_congr rfl fun c _ => ?_
        rw [colRow_swap]
    _ = ∑ c ∈ Finset.range m, ∑ t ∈ Finset.range m,
          (x t * (∑ e ∈ Finset.range m, A.entry t e * sigma.entry e c)) * v c := by
        refine Finset.sum_congr rfl fun c _ => ?_
        rw [Finset.sum_mul]
    _ = ∑ t ∈ Finset.range m, ∑ c ∈ Finset.range m,
          (x t * (∑ e ∈ Finset.range m, A.entry t e * sigma.entry e c)) * v c :=
        Finset.sum_comm
    _ = ∑ t ∈ Finset.range m,
          x t * (∑ c ∈ Finset.range m,
            (∑ e ∈ Finset.range m, A.entry t e * sigma.entry e c) * v c) := by
        refine Finset.sum_congr rfl fun t _ => ?_
        rw [Finset.mul_sum]
        refine Finset.sum_congr rfl fun c _ => ?_
        ring

/-- The full sandwich `(x·A) · sigma · (y·A)ᵀ` rewritten so that the
recomposition `A · sigma · Aᵀ` appears in the middle. -/
theorem quad_sum_swap (m : Nat) (x y : Nat → ℚ) (A sigma : Mat) :
    (∑ c ∈ Finset.range m,
        (∑ e ∈ Finset.range m,
          (∑ t ∈ Finset.range m, x t * A.entry t e) * sigma.entry e c) *
          (∑ d ∈ Finset.range m, y d * A.entry d c))
      = ∑ t ∈ Finset.range m, ∑ d ∈ Finset.range m,
          (x t * y d) *
            (∑ c ∈ Finset.range m,
              (∑ e ∈ Finset.range m, A.entry t e * sigma.entry e c) *
                A.entry d c) := by
  calc (∑ c ∈ Finset.range m,
      (∑ e ∈ Finset.range m,
        (∑ t ∈ Finset.range m, x t * A.entry t e) * sigma.entry e c) *
        (∑ d ∈ Finset.range m, y d * A.entry d c))
      = ∑ t ∈ Finset.range m,
          x t * (∑ c ∈ Finset.range m,
            (∑ e ∈ Finset.range m, A.entry t e * sigma.entry e c) *
              (∑ d ∈ Finset.range m, y d * A.entry d c)) :=
        tri_sum_swap m x (fun c => ∑ d ∈ Finset.range m, y d * A.entry d c) A sigma
    _ = ∑ t ∈ Finset.range m,
          x t * (∑ d ∈ Finset.range m,
            y d * (∑ c ∈ Finset.range m,
              (∑ e ∈ Finset.range m, A.entry t e * sigma.entry e c) *
                A.entry d c)) := by
        refine Finset.sum_congr rfl fun t _ => ?_
        congr 1
        calc (∑ c ∈ Finset.range m,
            (∑ e ∈ Finset.range m, A.entry t e * sigma.entry e c) *
              (∑ d ∈ Finset.range m, y d * A.entry d c))
            = ∑ c ∈ Finset.range m, ∑ d ∈ Finset.range m,
                (∑ e ∈ Finset.range m, A.entry t e * sigma.entry e c) *
                  (y d * A.entry d c) := by
              refine Finset.sum_congr rfl fun c _ => ?_
              rw [Finset.mul_sum]
          _ = ∑ d ∈ Finset.range m, ∑ c ∈ Finset.range m,
                (∑ e ∈ Finset.range m, A.entry t e * sigma.entry e c) *
                  (y d * A.entry d c) := Finset.sum_comm
          _ = ∑ d ∈ Finset.range m,
                y d * (∑ c ∈ Finset.range m,
                  (∑ e ∈ Finset.range m, A.entry t e * sigma.entry e c) *
                    A.entry d c) := by
              refine Finset.sum_congr rfl fun d _ => ?_
              rw [Finset.mul_sum]
              refine Finset.sum_congr rfl fun c _ => ?_
              ring
    _ = ∑ t ∈ Finset.range m, ∑ d ∈ Finset.range m,
          (x t * y d) *
            (∑ c ∈ Finset.range m,
              (∑ e ∈ Finset.range m, A.entry t e * sigma.entry e c) *
                A.entry d c) := by
        refine Finset.sum_congr rfl fun t _ => ?_
        rw [Finset.mul_sum]
        refine Finset.sum_congr rfl fun d _ => ?_
        ring

/-- A double sum over `range (r+1)` of terms vanishing outside the
`r × r` block collapses to the block. -/
theorem sum_range_succ_restrict (r : Nat) (f : Nat → Nat → ℚ) :
    (∑ t ∈ Finset.range (r + 1), ∑ d ∈ Finset.range (r + 1),
        if t < r ∧ d < r then f t d else 0)
      = ∑ t ∈ Finset.range r, ∑ d ∈ Finset.range r, f t d := by
  rw [Finset.sum_range_succ]
  have h2 : (∑ d ∈ Finset.range (r + 1), if r < r ∧ d < r then f r d else 0) = 0 :=
    Finset.sum_eq_zero fun d _ => if_neg fun hand => lt_irrefl r hand.1
  rw [h2, add_zero]
  refine Finset.sum_congr rfl fun t ht => ?_
  rw [Finset.sum_range_succ, if_neg (fun hand => lt_irrefl r hand.2), add_zero]
  refine Finset.sum_congr rfl fun d hd => ?_
  rw [if_pos (And.intro (Finset.mem_range.mp ht) (Finset.mem_range.mp hd))]

/-- A trace-carrying reachable state is in particular reachable. -/
theorem reachableT_toReachable {dim : Nat} {tol : ℚ} {skip : Bool}
    {samples : List (Nat → ℚ)} {s : BasisState}
    (h : ReachableT dim tol skip samples s) : Reachable dim tol skip s := by
  induction h with
  | init u k time hk hcert ht => exact Reachable.init u k time hk hcert ht
  | step samples s u k A sigma w hs hk hcert hnovel hAdims hsdims hAorth hcons ih =>
    exact Reachable.step s u k A sigma w ih hk hcert hnovel hAdims hsdims hAorth

/-- The trace holds exactly one sample per sample counted in the state. -/
theorem reachableT_length {dim : Nat} {tol : ℚ} {skip : Bool}
    {samples : List (Nat → ℚ)} {s : BasisState}
    (h : ReachableT dim tol skip samples s) : samples.length = s.num_samples := by
  induction h with
  | init u k time hk hcert ht => rfl
  | step samples s u k A sigma w hs hk hcert hnovel hAdims hsdims hAorth hcons ih =>
    rw [List.length_append, List.length_singleton, ih]
    by_cases hcond : tol < k ∨ skip = false
    · rw [takeSampleSVD, if_pos hcond]
      rfl
    · rw [takeSampleSVD, if_neg hcond]
      rfl

/-- The novel branch leaves the reconstruction of every earlier sample
unchanged, provided the small-SVD output recomposes to the augmented
matrix. -/
theorem recon_addNewSample_old (s : BasisState) (u j : Nat → ℚ) (k : ℚ)
    (A sigma : Mat) (hUc : s.U.cols = s.rank) (hPc : s.Up.cols = s.rank)
    (hcons : NovelConsistent s u k A sigma)
    (i : Nat) (hi : i < s.Up.rows) (p : Nat) :
    recon (addNewSample s j A sigma) i p = recon s i p := by
  have hU' : ∀ e, ((s.U.appendCol j).mul A).entry p e
      = ∑ t ∈ Finset.range (s.rank + 1), (s.U.appendCol j).entry p t * A.entry t e := by
    intro e
    rw [Mat.mul_entry, Mat.appendCol_cols, hUc]
  have hUp' : ∀ c, (((s.Up.appendCol fun _ => 0).appendRow
        fun c' => if c' = s.rank then 1 else 0).mul A).entry i c
      = ∑ d ∈ Finset.range (s.rank + 1),
          ((s.Up.appendCol fun _ => 0).appendRow
            fun c' => if c' = s.rank then 1 else 0).entry i d * A.entry d c := by
    intro c
    rw [Mat.mul_entry, Mat.appendRow_cols, Mat.appendCol_cols, hPc]
  have hE : ∀ d, ((s.Up.appendCol fun _ => 0).appendRow
        fun c' => if c' = s.rank then 1 else 0).entry i d
      = if d = s.rank then 0 else s.Up.entry i d := by
    intro d
    show (if i = (s.Up.appendCol fun _ => 0).rows then (if d = s.rank then 1 else 0)
        else (s.Up.appendCol fun _ => 0).entry i d) = _
    rw [Mat.appendCol_rows, if_neg (Nat.ne_of_lt hi)]
    show (if d = s.Up.cols then 0 else s.Up.entry i d) = _
    rw [hPc]
  have hB : ∀ t, (s.U.appendCol j).entry p t
      = if t = s.rank then j p else s.U.entry p t := by
    intro t
    show (if t = s.U.cols then j p else s.U.entry p t) = _
    rw [hUc]
  show (∑ c ∈ Finset.range (s.rank + 1),
      (∑ e ∈ Finset.range (s.rank + 1),
        ((s.U.appendCol j).mul A).entry p e * sigma.entry e c) *
      (((s.Up.appendCol fun _ => 0).appendRow
        fun c' => if c' = s.rank then 1 else 0).mul A).entry i c) = recon s i p
  calc (∑ c ∈ Finset.range (s.rank + 1),
      (∑ e ∈ Finset.range (s.rank + 1),
        ((s.U.appendCol j).mul A).entry p e * sigma.entry e c) *
      (((s.Up.appendCol fun _ => 0).appendRow
        fun c' => if c' = s.rank then 1 else 0).mul A).entry i c)
      = ∑ c ∈ Finset.range (s.rank + 1),
          (∑ e ∈ Finset.range (s.rank + 1),
            (∑ t ∈ Finset.range (s.rank + 1),
              (s.U.appendCol j).entry p t * A.entry t e) * sigma.entry e c) *
          (∑ d ∈ Finset.range (s.rank + 1),
            ((s.Up.appendCol fun _ => 0).appendRow
              fun c' => if c' = s.rank then 1 else 0).entry i d * A.entry d c) := by
        refine Finset.sum_congr rfl fun c _ => ?_
        rw [hUp' c]
        congr 1
        refine Finset.sum_congr rfl fun e _ => ?_
        rw [hU' e]
    _ = ∑ t ∈ Finset.range (s.rank + 1), ∑ d ∈ Finset.range (s.rank + 1),
          ((s.U.appendCol j).entry p t *
            ((s.Up.appendCol fun _ => 0).appendRow
              fun c' => if c' = s.rank then 1 else 0).entry i d) *
          (∑ c ∈ Finset.range (s.rank + 1),
            (∑ e ∈ Finset.range (s.rank + 1), A.entry t e * sigma.entry e c) *
              A.entry d c) :=
        quad_sum_swap (s.rank + 1) (fun t => (s.U.appendCol j).entry p t)
          (fun d => ((s.Up.appendCol fun _ => 0).appendRow
            fun c' => if c' = s.rank then 1 else 0).entry i d) A sigma
    _ = ∑ t ∈ Finset.range (s.rank + 1), ∑ d ∈ Finset.range (s.rank + 1),
          (if t < s.rank ∧ d < s.rank then
            (s.U.entry p t * s.Up.entry i d) * s.Sigma.entry t d else 0) := by
        refine Finset.sum_congr rfl fun t ht => Finset.sum_congr rfl fun d hd => ?_
        rw [hcons t (Finset.mem_range.mp ht) d (Finset.mem_range.mp hd), hB t, hE d]
        by_cases htr : t < s.rank
        · by_cases hdr : d < s.rank
          · rw [if_neg (Nat.ne_of_lt htr), if_neg (Nat.ne_of_lt hdr), if_pos htr,
              if_pos hdr, if_pos (And.intro htr hdr)]
          · have hdeq : d = s.rank := by
              have := Finset.mem_range.mp hd
              omega
            rw [if_neg (Nat.ne_of_lt htr), if_pos hdeq, if_pos htr, if_neg hdr,
              mul_zero, zero_mul, if_neg (fun hand => hdr hand.2)]
        · have hteq : t = s.rank := by
            have := Finset.mem_range.mp ht
            omega
          by_cases hdr : d < s.rank
          · rw [if_pos hteq, if_neg (Nat.ne_of_lt hdr), if_neg htr, if_pos hdr,
              mul_zero, if_neg (fun hand => htr hand.1)]
          · have hdeq : d = s.rank := by
              have := Finset.mem_range.mp hd
              omega
            rw [if_pos hteq, if_pos hdeq, if_neg htr, if_neg hdr, mul_zero,
              zero_mul, if_neg (fun hand => htr hand.1)]
    _ = ∑ t ∈ Finset.range s.rank, ∑ d ∈ Finset.range s.rank,
          (s.U.entry p t * s.Up.entry i d) * s.Sigma.entry t d :=
        sum_range_succ_restrict s.rank
          (fun t d => (s.U.entry p t * s.Up.entry i d) * s.Sigma.entry t d)
    _ = recon s i p := by
        rw [Finset.sum_comm]
        refine Finset.sum_congr rfl fun d _ => ?_
        rw [Finset.sum_mul]
        refine Finset.sum_congr rfl fun t _ => ?_
        ring

/-- The novel branch reconstructs the newly added sample exactly. -/
theorem recon_addNewSample_new (s : BasisState) (u : Nat → ℚ) (k : ℚ)
    (A sigma : Mat) (hk : k ≠ 0)
    (hUc : s.U.cols = s.rank) (hPc : s.Up.cols = s.rank)
    (hcons : NovelConsistent s u k A sigma) (p : Nat) :
    recon (addNewSample s (fun q => residual s u q / k) A sigma) s.Up.rows p
      = u p := by
  have hU' : ∀ e, ((s.U.appendCol fun q => residual s u q / k).mul A).entry p e
      = ∑ t ∈ Finset.range (s.rank + 1),
          (s.U.appendCol fun q => residual s u q / k).entry p t * A.entry t e := by
    intro e
    rw [Mat.mul_entry, Mat.appendCol_cols, hUc]
  have hUp' : ∀ c, (((s.Up.appendCol fun _ => 0).appendRow
        fun c' => if c' = s.rank then 1 else 0).mul A).entry s.Up.rows c
      = ∑ d ∈ Finset.range (s.rank + 1),
          ((s.Up.appendCol fun _ => 0).appendRow
            fun c' => if c' = s.rank then 1 else 0).entry s.Up.rows d * A.entry d c := by
    intro c
    rw [Mat.mul_entry, Mat.appendRow_cols, Mat.appendCol_cols, hPc]
  have hE : ∀ d, ((s.Up.appendCol fun _ => 0).appendRow
        fun c' => if c' = s.rank then 1 else 0).entry s.Up.rows d
      = if d = s.rank then 1 else 0 := by
    intro d
    show (if s.Up.rows = (s.Up.appendCol fun _ => 0).rows
        then (if d = s.rank then 1 else 0)
        else (s.Up.appendCol fun _ => 0).entry s.Up.rows d) = _
    rw [Mat.appendCol_rows, if_pos rfl]
  have hB : ∀ t, (s.U.appendCol fun q => residual s u q / k).entry p t
      = if t = s.rank then residual s u p / k else s.U.entry p t := by
    intro t
    show (if t = s.U.cols then residual s u p / k else s.U.entry p t) = _
    rw [hUc]
  show (∑ c ∈ Finset.range (s.rank + 1),
      (∑ e ∈ Finset.range (s.rank + 1),
        ((s.U.appendCol fun q => residual s u q / k).mul A).entry p e *
          sigma.entry e c) *
      (((s.Up.appendCol fun _ => 0).appendRow
        fun c' => if c' = s.rank then 1 else 0).mul A).entry s.Up.rows c) = u p
  calc (∑ c ∈ Finset.range (s.rank + 1),
      (∑ e ∈ Finset.range (s.rank + 1),
        ((s.U.appendCol fun q => residual s u q / k).mul A).entry p e *
          sigma.entry e c) *
      (((s.Up.appendCol fun _ => 0).appendRow
        fun c' => if c' = s.rank then 1 else 0).mul A).entry s.Up.rows c)
      = ∑ c ∈ Finset.range (s.rank + 1),
          (∑ e ∈ Finset.range (s.rank + 1),
            (∑ t ∈ Finset.range (s.rank + 1),
              (s.U.appendCol fun q => residual s u q / k).entry p t * A.entry t e) *
            sigma.entry e c) *
          (∑ d ∈ Finset.range (s.rank + 1),
            ((s.Up.appendCol fun _ => 0).appendRow
              fun c' => if c' = s.rank then 1 else 0).entry s.Up.rows d *
              A.entry d c) := by
        refine Finset.sum_congr rfl fun c _ => ?_
        rw [hUp' c]
        congr 1
        refine Finset.sum_congr rfl fun e _ => ?_
        rw [hU' e]
    _ = ∑ t ∈ Finset.range (s.rank + 1), ∑ d ∈ Finset.range (s.rank + 1),
          ((s.U.appendCol fun q => residual s u q / k).entry p t *
            ((s.Up.appendCol fun _ => 0).appendRow
              fun c' => if c' = s.rank then 1 else 0).entry s.Up.rows d) *
          (∑ c ∈ Finset.range (s.rank + 1),
            (∑ e ∈ Finset.range (s.rank + 1), A.entry t e * sigma.entry e c) *
              A.entry d c) :=
        quad_sum_swap (s.rank + 1)
          (fun t => (s.U.appendCol fun q => residual s u q / k).entry p t)
          (fun d => ((s.Up.appendCol fun _ => 0).appendRow
            fun c' => if c' = s.rank then 1 else 0).entry s.Up.rows d) A sigma
    _ = ∑ t ∈ Finset.range (s.rank + 1), ∑ d ∈ Finset.range (s.rank + 1),
          (if d = s.rank then
            (if t = s.rank then residual s u p / k else s.U.entry p t) *
              (if t < s.rank then
                (if d < s.rank then s.Sigma.entry t d else projCoeff s u t)
              else (if d < s.rank then 0 else k))
          else 0) := by
        refine Finset.sum_congr rfl fun t ht => Finset.sum_congr rfl fun d hd => ?_
        rw [hcons t (Finset.mem_range.mp ht) d (Finset.mem_range.mp hd), hB t, hE d]
        by_cases hdeq : d = s.rank
        · rw [if_pos hdeq, mul_one, if_pos hdeq]
        · rw [if_neg hdeq, mul_zero, zero_mul, if_neg hdeq]
    _ = ∑ t ∈ Finset.range (s.rank + 1),
          (if t = s.rank then residual s u p / k else s.U.entry p t) *
            (if t < s.rank then
              (if s.rank < s.rank then s.Sigma.entry t s.rank else projCoeff s u t)
            else (if s.rank < s.rank then 0 else k)) := by
        refine Finset.sum_congr rfl fun t _ => ?_
        rw [Finset.sum_ite_eq', if_pos (Finset.mem_range.mpr (Nat.lt_succ_self s.rank))]
    _ = ∑ t ∈ Finset.range (s.rank + 1),
          (if t = s.rank then residual s u p / k else s.U.entry p t) *
            (if t < s.rank then projCoeff s u t else k) := by
        refine Finset.sum_congr rfl fun t _ => ?_
        rw [if_neg (lt_irrefl s.rank), if_neg (lt_irrefl s.rank)]
    _ = (∑ t ∈ Finset.range s.rank, s.U.entry p t * projCoeff s u t)
          + (residual s u p / k) * k := by
        rw [Finset.sum_range_succ]
        congr 1
        · refine Finset.sum_congr rfl fun t ht => ?_
          have htr := Finset.mem_range.mp ht
          rw [if_neg (Nat.ne_of_lt htr), if_pos htr]
        · rw [if_pos rfl, if_neg (lt_irrefl s.rank)]
    _ = u p := by
        rw [div_mul_cancel₀ _ hk]
        simp only [residual]
        ring

/-- The dependent branch leaves the reconstruction of every earlier
sample unchanged, provided the small-SVD output recomposes to the
current singular values. -/
theorem recon_addDep_old (s : BasisState) (A sigma : Mat) (w : Nat → ℚ)
    (hUc : s.U.cols = s.rank) (hPc : s.Up.cols = s.rank)
    (hconsS : ∀ t, t < s.rank → ∀ d, d < s.rank →
      (∑ c ∈ Finset.range s.rank,
        (∑ e ∈ Finset.range s.rank, A.entry t e * sigma.entry e c) *
          A.entry d c) = s.Sigma.entry t d)
    (i : Nat) (hi : i < s.Up.rows) (p : Nat) :
    recon (addLinearlyDependentSample s A sigma w) i p = recon s i p := by
  have hU' : ∀ e, (s.U.mul A).entry p e
      = ∑ t ∈ Finset.range s.rank, s.U.entry p t * A.entry t e := by
    intro e
    rw [Mat.mul_entry, hUc]
  have hUp' : ∀ c, ((s.Up.mul A).appendRow w).entry i c
      = ∑ d ∈ Finset.range s.rank, s.Up.entry i d * A.entry d c := by
    intro c
    show (if i = (s.Up.mul A).rows then w c else (s.Up.mul A).entry i c) = _
    rw [Mat.mul_rows, if_neg (Nat.ne_of_lt hi), Mat.mul_entry, hPc]
  show (∑ c ∈ Finset.range s.rank,
      (∑ e ∈ Finset.range s.rank, (s.U.mul A).entry p e * sigma.entry e c) *
      ((s.Up.mul A).appendRow w).entry i c) = recon s i p
  calc (∑ c ∈ Finset.range s.rank,
      (∑ e ∈ Finset.range s.rank, (s.U.mul A).entry p e * sigma.entry e c) *
      ((s.Up.mul A).appendRow w).entry i c)
      = ∑ c ∈ Finset.range s.rank,
          (∑ e ∈ Finset.range s.rank,
            (∑ t ∈ Finset.range s.rank, s.U.entry p t * A.entry t e) *
              sigma.entry e c) *
          (∑ d ∈ Finset.range s.rank, s.Up.entry i d * A.entry d c) := by
        refine Finset.sum_congr rfl fun c _ => ?_
        rw [hUp' c]
        congr 1
        refine Finset.sum_congr rfl fun e _ => ?_
        rw [hU' e]
    _ = ∑ t ∈ Finset.range s.rank, ∑ d ∈ Finset.range s.rank,
          (s.U.entry p t * s.Up.entry i d) *
          (∑ c ∈ Finset.range s.rank,
            (∑ e ∈ Finset.range s.rank, A.entry t e * sigma.entry e c) *
              A.entry d c) :=
        quad_sum_swap s.rank (fun t => s.U.entry p t) (fun d => s.Up.entry i d)
          A sigma
    _ = ∑ t ∈ Finset.range s.rank, ∑ d ∈ Finset.range s.rank,
          (s.U.entry p t * s.Up.entry i d) * s.Sigma.entry t d := by
        refine Finset.sum_congr rfl fun t ht => Finset.sum_congr rfl fun d hd => ?_
        rw [hconsS t (Finset.mem_range.mp ht) d (Finset.mem_range.mp hd)]
    _ = recon s i p := by
        rw [Finset.sum_comm]
        refine Finset.sum_congr rfl fun d _ => ?_
        rw [Finset.sum_mul]
        refine Finset.sum_congr rfl fun t _ => ?_
        ring

/-- The dependent branch reconstructs the newly added sample up to its
residual: the appended coordinate row recovers exactly the projection
of the sample onto the basis. -/
theorem recon_addDep_new (s : BasisState) (u : Nat → ℚ) (A sigma : Mat)
    (w : Nat → ℚ) (hUc : s.U.cols = s.rank)
    (hconsW : ∀ t, t < s.rank →
      (∑ c ∈ Finset.range s.rank,
        (∑ e ∈ Finset.range s.rank, A.entry t e * sigma.entry e c) * w c)
        = projCoeff s u t)
    (p : Nat) :
    recon (addLinearlyDependentSample s A sigma w) s.Up.rows p
      = u p - residual s u p := by
  have hU' : ∀ e, (s.U.mul A).entry p e
      = ∑ t ∈ Finset.range s.rank, s.U.entry p t * A.entry t e := by
    intro e
    rw [Mat.mul_entry, hUc]
  have hUp' : ∀ c, ((s.Up.mul A).appendRow w).entry s.Up.rows c = w c := by
    intro c
    show (if s.Up.rows = (s.Up.mul A).rows then w c else (s.Up.mul A).entry s.Up.rows c) = _
    rw [Mat.mul_rows, if_pos rfl]
  show (∑ c ∈ Finset.range s.rank,
      (∑ e ∈ Finset.range s.rank, (s.U.mul A).entry p e * sigma.entry e c) *
      ((s.Up.mul A).appendRow w).entry s.Up.rows c) = u p - residual s u p
  calc (∑ c ∈ Finset.range s.rank,
      (∑ e ∈ Finset.range s.rank, (s.U.mul A).entry p e * sigma.entry e c) *
      ((s.Up.mul A).appendRow w).entry s.Up.rows c)
      = ∑ c ∈ Finset.range s.rank,
          (∑ e ∈ Finset.range s.rank,
            (∑ t ∈ Finset.range s.rank, s.U.entry p t * A.entry t e) *
              sigma.entry e c) * w c := by
        refine Finset.sum_congr rfl fun c _ => ?_
        rw [hUp' c]
        congr 1
        refine Finset.sum_congr rfl fun e _ => ?_
        rw [hU' e]
    _ = ∑ t ∈ Finset.range s.rank,
          s.U.entry p t *
            (∑ c ∈ Finset.range s.rank,
              (∑ e ∈ Finset.range s.rank, A.entry t e * sigma.entry e c) * w c) :=
        tri_sum_swap s.rank (fun t => s.U.entry p t) w A sigma
    _ = ∑ t ∈ Finset.range s.rank, s.U.entry p t * projCoeff s u t := by
        refine Finset.sum_congr rfl fun t ht => ?_
        rw [hconsW t (Finset.mem_range.mp ht)]
    _ = u p - residual s u p := by
        simp only [residual]
        ring

/-- C3: in every reachable Basis State, for every sample accepted into
the interval so far, `U · Sigma · (row of Up for that sample)ᵀ`
reconstructs the original sample up to an error whose squared norm is
at most `linearity_tol ^ 2` (zero for novel samples, the discarded
residual — of norm at most the tolerance — for dependent ones). -/
theorem reconstruction_property {dim : Nat} {tol : ℚ} {skip : Bool}
    {samples : List (Nat → ℚ)} {s : BasisState}
    (h : ReachableT dim tol skip samples s) :
    ∀ i, i < s.num_samples →
      sumSq s.dim (fun p => recon s i p - (samples.getD i fun _ => 0) p)
        ≤ tol ^ 2 := by
  induction h with
  | init u k time hk hcert ht =>
    intro i hi
    have hi0 : i = 0 := Nat.lt_one_iff.mp hi
    subst hi0
    have hrecon : ∀ p, recon (buildInitialSVD dim u k time) 0 p = u p := by
      intro p
      show (∑ c ∈ Finset.range 1, (∑ e ∈ Finset.range 1, u p / k * k) * 1) = u p
      rw [Finset.sum_range_one, Finset.sum_range_one, mul_one,
        div_mul_cancel₀ _ (ne_of_gt hk)]
    have hfun : (fun p => recon (buildInitialSVD dim u k time) 0 p -
        ([u].getD 0 fun _ => 0) p) = fun _ => (0 : ℚ) := by
      funext p
      rw [hrecon p]
      show u p - u p = 0
      exact sub_self (u p)
    rw [hfun]
    have hz : sumSq (buildInitialSVD dim u k time).dim (fun _ => (0 : ℚ)) = 0 := by
      simp [sumSq]
    rw [hz]
    exact sq_nonneg tol
  | step samples s u k A sigma w hs hk hcert hnovel hAdims hsdims hAorth hcons ih =>
    obtain ⟨hdim, hUr, hUc, hSr, hSc, hPr, hPc, hn, hr⟩ :=
      reachable_shape (reachableT_toReachable hs)
    have hlen := reachableT_length hs
    intro i hi
    by_cases hcond : tol < k ∨ skip = false
    · rw [takeSampleSVD, if_pos hcond] at hi ⊢
      rw [if_pos hcond] at hcons
      have hi' : i < s.num_samples + 1 := hi
      rcases Nat.lt_succ_iff_lt_or_eq.mp hi' with hiold | hinew
      · have hfun : (fun p =>
            recon (addNewSample s (fun q => residual s u q / k) A sigma) i p -
              ((samples ++ [u]).getD i fun _ => 0) p)
            = fun p => recon s i p - (samples.getD i fun _ => 0) p := by
          funext p
          rw [recon_addNewSample_old s u (fun q => residual s u q / k) k A sigma
            hUc hPc hcons i (by rw [hPr]; exact hiold) p]
          rw [List.getD_append samples [u] _ i (by rw [hlen]; exact hiold)]
        rw [hfun]
        exact ih i hiold
      · have hkne : k ≠ 0 := ne_of_gt (hnovel hcond)
        have hiup : i = s.Up.rows := by
          rw [hinew]
          exact hPr.symm
        have hsample : (samples ++ [u]).getD i (fun _ => 0) = u := by
          rw [List.getD_append_right samples [u] _ i (by rw [hlen, hinew])]
          have hz : i - samples.length = 0 := by omega
          rw [hz]
          rfl
        have hfun : (fun p =>
            recon (addNewSample s (fun q => residual s u q / k) A sigma) i p -
              ((samples ++ [u]).getD i fun _ => 0) p)
            = fun _ => (0 : ℚ) := by
          funext p
          rw [hsample, hiup,
            recon_addNewSample_new s u k A sigma hkne hUc hPc hcons p]
          exact sub_self (u p)
        rw [hfun]
        have hz : sumSq (addNewSample s (fun q => residual s u q / k) A sigma).dim
            (fun _ => (0 : ℚ)) = 0 := by
          simp [sumSq]
        rw [hz]
        exact sq_nonneg tol
    · rw [takeSampleSVD, if_neg hcond] at hi ⊢
      rw [if_neg hcond] at hcons
      obtain ⟨hconsS, hconsW⟩ := hcons
      have hkle : k ≤ tol := not_lt.mp (not_or.mp hcond).1
      have hi' : i < s.num_samples + 1 := hi
      rcases Nat.lt_succ_iff_lt_or_eq.mp hi' with hiold | hinew
      · have hfun : (fun p =>
            recon (addLinearlyDependentSample s A sigma w) i p -
              ((samples ++ [u]).getD i fun _ => 0) p)
            = fun p => recon s i p - (samples.getD i fun _ => 0) p := by
          funext p
          rw [recon_addDep_old s A sigma w hUc hPc hconsS i
            (by rw [hPr]; exact hiold) p]
          rw [List.getD_append samples [u] _ i (by rw [hlen]; exact hiold)]
        rw [hfun]
        exact ih i hiold
      · have hiup : i = s.Up.rows := by
          rw [hinew]
          exact hPr.symm
        have hsample : (samples ++ [u]).getD i (fun _ => 0) = u := by
          rw [List.getD_append_right samples [u] _ i (by rw [hlen, hinew])]
          have hz : i - samples.length = 0 := by omega
          rw [hz]
          rfl
        have hfun : (fun p =>
            recon (addLinearlyDependentSample s A sigma w) i p -
              ((samples ++ [u]).getD i fun _ => 0) p)
            = fun p => -(residual s u p) := by
          funext p
          rw [hsample, hiup, recon_addDep_new s u A sigma w hUc hconsW p]
          ring
        rw [hfun]
        have hneg : sumSq (addLinearlyDependentSample s A sigma w).dim
            (fun p => -(residual s u p)) = sumSq s.dim (residual s u) := by
          show sumSq s.dim _ = sumSq s.dim _
          rw [sumSq, sumSq]
          exact Finset.sum_congr rfl fun p _ => neg_sq _
        rw [hneg, ← hcert]
        exact pow_le_pow_left₀ hk hkle 2

/-- Witness for C3 on a two-sample trace: in dimension 3, the sample
`[1,0,0]` followed by the orthogonal sample `[0,1,0]` with
`linearity_tol = 1/2` (residual norm 1, novel branch, small SVD given
by the identity rotation); every sample is reconstructed with squared
error at most `(1/2)^2`. -/
theorem reconstruction_property_witness :
    (sumSq (takeSampleSVD (1/2) true stateA e1 1 (idMat 2) (idMat 2) e0).dim
      (fun p => recon (takeSampleSVD (1/2) true stateA e1 1 (idMat 2) (idMat 2) e0) 0 p -
        (([e0] ++ [e1]).getD 0 fun _ => 0) p)
      ≤ (1/2) ^ 2) ∧
    (sumSq (takeSampleSVD (1/2) true stateA e1 1 (idMat 2) (idMat 2) e0).dim
      (fun p => recon (takeSampleSVD (1/2) true stateA e1 1 (idMat 2) (idMat 2) e0) 1 p -
        (([e0] ++ [e1]).getD 1 fun _ => 0) p)
      ≤ (1/2) ^ 2) := by
  have h0 : ReachableT 3 (1/2) true [e0] stateA :=
    ReachableT.init e0 1 0 (by norm_num)
      (by norm_num [sumSq, e0, Finset.sum_range_succ]) (le_refl 0)
  have hcondtrue : ((1 : ℚ)/2 < 1 ∨ true = false) := Or.inl (by norm_num)
  have hcert : (1 : ℚ) ^ 2 = sumSq stateA.dim (residual stateA e1) := by
    norm_num [sumSq, residual, projCoeff, stateA, buildInitialSVD, e0, e1,
      Finset.sum_range_succ, Finset.sum_range_zero]
  have hAdims : (idMat 2).rows =
      (if (1 : ℚ)/2 < 1 ∨ true = false then stateA.rank + 1 else stateA.rank) ∧
      (idMat 2).cols = (idMat 2).rows := by
    rw [if_pos hcondtrue]
    exact ⟨rfl, rfl⟩
  have hsdims : (idMat 2).rows = (idMat 2).rows ∧ (idMat 2).cols = (idMat 2).rows :=
    ⟨rfl, rfl⟩
  have hAorth : Mat.EqOn ((idMat 2).transpose.mul (idMat 2)) (idMat (idMat 2).rows) := by
    refine ⟨rfl, rfl, ?_⟩
    intro i hi j hj
    have hi' : i < 2 := hi
    have hj' : j < 2 := hj
    interval_cases i <;> interval_cases j <;>
      norm_num [Mat.mul, Mat.transpose, idMat, Finset.sum_range_succ,
        Finset.sum_range_zero]
  have hcons : if (1 : ℚ)/2 < 1 ∨ true = false
      then NovelConsistent stateA e1 1 (idMat 2) (idMat 2)
      else DepConsistent stateA e1 (idMat 2) (idMat 2) e0 := by
    rw [if_pos hcondtrue]
    intro t ht d hd
    have ht' : t < 2 := ht
    have hd' : d < 2 := hd
    interval_cases t <;> interval_cases d <;>
      norm_num [projCoeff, stateA, buildInitialSVD, idMat, e0, e1,
        Finset.sum_range_succ, Finset.sum_range_zero]
  have hmain := reconstruction_property
    (ReachableT.step [e0] stateA e1 1 (idMat 2) (idMat 2) e0 h0 (by norm_num)
      hcert (fun _ => by norm_num) hAdims hsdims hAorth hcons)
  have hns : (takeSampleSVD (1/2) true stateA e1 1 (idMat 2) (idMat 2) e0).num_samples = 2 := by
    rw [takeSampleSVD, if_pos hcondtrue]
    rfl
  exact ⟨hmain 0 (by rw [hns]; norm_num), hmain 1 (by rw [hns]; norm_num)⟩

end CAROM
